import Mathlib

/-!
Verification of the numeric support routines in `util.py` of hart-pytorch.

Modelling choices.  A box tensor is modelled elementwise: a box is a record
of four rationals `(x, y, w, h)` and an array of boxes is a list.  Exact
rational arithmetic stands in for floating point.  The elementwise
logarithm has no exact computable counterpart, so the negative-log family
(`nll`, `masked_nll`) takes the logarithm as an explicit function
parameter `lg`; every statement proved about these functions holds for an
arbitrary `lg`, hence in particular for the mathematical logarithm.  The
`assert` in `check_bbox_validness` is modelled by `Option`: `intersection`
returns `none` exactly when the assertion would fire.  Gradient clipping
(`clip_grads`) contains a genuine square root, so it alone is modelled over
the reals with `Real.sqrt`.
-/

/-- Model of a single bounding box `(x, y, w, h)`: the last dimension of
size 4 of a box tensor. -/
structure Box where
  x : ℚ
  y : ℚ
  w : ℚ
  h : ℚ
deriving DecidableEq

/-- Validity of one box: nonnegative width and height, the property that
`check_bbox_validness` asserts elementwise (util.py lines 47-49). -/
def boxValidP (b : Box) : Prop := 0 ≤ b.w ∧ 0 ≤ b.h

instance (b : Box) : Decidable (boxValidP b) := by
  unfold boxValidP; infer_instance

/-- Model of `check_bbox_validness(b)`: the assertion succeeds on an array
of boxes iff every box has `w ≥ 0` and `h ≥ 0` (util.py lines 47-49). -/
def check_bbox_validness (bs : List Box) : Prop := ∀ b ∈ bs, boxValidP b

instance (bs : List Box) : Decidable (check_bbox_validness bs) := by
  unfold check_bbox_validness; infer_instance

/-- Model of `clamp_bbox(b)` (util.py lines 52-59): `bw - bw.clamp(max=0)`
elementwise on the width and height.  `.detach()` changes only the autograd
graph, never the value, so it is the identity in a value-level model. -/
def clamp_bbox (b : Box) : Box :=
  ⟨b.x, b.y, b.w - min b.w 0, b.h - min b.h 0⟩

/-- The geometric part of `intersection(a, b)` (util.py lines 66-72). -/
def inter_area (a b : Box) : ℚ :=
  let x1 := max a.x b.x
  let y1 := max a.y b.y
  let x2 := min (a.x + a.w) (b.x + b.w)
  let y2 := min (a.y + a.h) (b.y + b.h)
  max (x2 - x1) 0 * max (y2 - y1) 0

/-- Model of `intersection(a, b)` (util.py lines 62-72): both arguments are
checked by `check_bbox_validness` first; `none` models the assertion
firing before any geometry is computed. -/
def intersection (a b : Box) : Option ℚ :=
  if boxValidP a ∧ boxValidP b then some (inter_area a b) else none

/-- Box area `b[..., 2] * b[..., 3]` as used by `iou` (util.py lines 98-99). -/
def box_area (b : Box) : ℚ := b.w * b.h

/-- Model of `iou(a, b) = i / (area a + area b - i)` (util.py lines 96-100). -/
def iou (a b : Box) : Option ℚ :=
  (intersection a b).map fun i => i / (box_area a + box_area b - i)

/-- The default epsilon `1e-8` of `nll` (util.py line 103). -/
def defaultEps : ℚ := 1 / 100000000

/-- The conditional epsilon `dx = ((x - eps) < 0).float() * eps` of `nll`
(util.py line 104). -/
def nll_dx (x eps : ℚ) : ℚ := if x - eps < 0 then eps else 0

/-- The argument `x + dx` fed to `log` inside `nll` (util.py line 105). -/
def nll_arg (x eps : ℚ) : ℚ := x + nll_dx x eps

/-- Model of `nll(x, eps) = -log(x + dx)` (util.py lines 103-105), for an
arbitrary elementwise logarithm `lg`. -/
def nll (lg : ℚ → ℚ) (x : ℚ) (eps : ℚ := defaultEps) : ℚ :=
  -lg (nll_arg x eps)

/-- The indicator `(q != 0).float()` used throughout `masked_nll`. -/
def presenceInd (q : ℚ) : ℚ := if q ≠ 0 then 1 else 0

/-- One row of `nll(x)`: the elementwise negative log (util.py line 109). -/
def nll_row (lg : ℚ → ℚ) (xs : List ℚ) : List ℚ := xs.map fun v => nll lg v

/-- Elementwise product of two rows, for `nll_x * weight` (util.py line 111). -/
def mul_rows (a b : List ℚ) : List ℚ := List.zipWith (· * ·) a b

/-- One row of `nll_x * (presence != 0).float()` (util.py line 112). -/
def mask_row (a ps : List ℚ) : List ℚ :=
  List.zipWith (fun v p => v * presenceInd p) a ps

/-- One row of `p = (presence != 0).float().sum(1)` (util.py line 113). -/
def row_p (ps : List ℚ) : ℚ := (ps.map presenceInd).sum

/-- The elementwise `nll` matrix, multiplied by `weight` when one is given
(util.py lines 109-111). -/
def nll_weighted (lg : ℚ → ℚ) (x : List (List ℚ)) :
    Option (List (List ℚ)) → List (List ℚ)
  | none => x.map (nll_row lg)
  | some w => List.zipWith mul_rows (x.map (nll_row lg)) w

/-- Model of `masked_nll(x, presence, weight)` (util.py lines 108-115), for
an arbitrary elementwise logarithm `lg`. -/
def masked_nll (lg : ℚ → ℚ) (x presence : List (List ℚ))
    (weight : Option (List (List ℚ)) := none) : ℚ :=
  let nll_x := List.zipWith mask_row (nll_weighted lg x weight) presence
  let p := presence.map row_p
  let nll1 :=
    List.zipWith (fun s pi => s / max pi 1 * presenceInd pi) (nll_x.map List.sum) p
  nll1.sum / (p.map presenceInd).sum

/-- The per-row divisor `p.clamp(min=1)` of `masked_nll` (util.py line 114). -/
def row_divisor (ps : List ℚ) : ℚ := max (row_p ps) 1

/-- The final batch divisor `(p != 0).float().sum()` of `masked_nll`
(util.py line 115). -/
def batch_divisor (presence : List (List ℚ)) : ℚ :=
  (presence.map fun ps => presenceInd (row_p ps)).sum

/-- Rephrasing of `maskedMean` from the spec's words: per row, sum the
(optionally weighted) negative-log terms over the present entries only and
divide by the count of present entries floored at one; then average the
per-row values of exactly those rows having at least one present entry. -/
def maskedMean_spec (lg : ℚ → ℚ) (x presence : List (List ℚ))
    (weight : Option (List (List ℚ)) := none) : ℚ :=
  let rows := List.zip (nll_weighted lg x weight) presence
  let nonempty := rows.filter fun r => r.2.any fun q => decide (q ≠ 0)
  (nonempty.map fun r =>
      (((List.zip r.1 r.2).filter fun vp => decide (vp.2 ≠ 0)).map Prod.fst).sum /
        max ((r.2.countP fun q => decide (q ≠ 0) : ℕ) : ℚ) 1).sum /
    (nonempty.length : ℚ)

/-- Row agreement: the three lists have the same length and the last two
agree at every position where the first (the presence row) is nonzero. -/
def agreeOnB : List ℚ → List ℚ → List ℚ → Bool
  | [], [], [] => true
  | p :: ps, a :: xs, b :: ys =>
      (decide (p = 0) || decide (a = b)) && agreeOnB ps xs ys
  | _, _, _ => false

/-- Matrix agreement: rowwise `agreeOnB` against the presence matrix. -/
def agreeOnMB : List (List ℚ) → List (List ℚ) → List (List ℚ) → Bool
  | [], [], [] => true
  | ps :: pr, xs :: xr, ys :: yr => agreeOnB ps xs ys && agreeOnMB pr xr yr
  | _, _, _ => false

/-- Agreement of two optional weight matrices at the present positions. -/
def weightAgreeB (presence : List (List ℚ)) :
    Option (List (List ℚ)) → Option (List (List ℚ)) → Bool
  | none, none => true
  | some w, some w' => agreeOnMB presence w w'
  | _, _ => false

/-- Model of one gradient tensor's L2 norm `p.grad.data.norm()`; a parameter
list entry with no gradient is `none`.  Gradient clipping is the one place
the code takes a square root, so this part is modelled over `ℝ`. -/
noncomputable def tensor_norm (v : List ℝ) : ℝ :=
  Real.sqrt ((v.map fun g => g ^ 2).sum)

/-- The accumulated `sum of p.grad.data.norm() ** 2` over parameters with a
defined gradient (util.py lines 146-149). -/
noncomputable def grad_sq_sum (grads : List (Option (List ℝ))) : ℝ :=
  (grads.map fun g =>
    match g with
    | none => (0 : ℝ)
    | some v => tensor_norm v ^ 2).sum

/-- The global gradient norm `grad_norm ** 0.5` (util.py line 150). -/
noncomputable def grad_norm (grads : List (Option (List ℝ))) : ℝ :=
  Real.sqrt (grad_sq_sum grads)

/-- Model of `clip_grads(named_params, max_norm)` (util.py lines 145-154):
when the global norm exceeds `max_norm`, every defined gradient is divided
in place by `grad_norm / max_norm`. -/
noncomputable def clip_grads (grads : List (Option (List ℝ))) (max_norm : ℝ) :
    List (Option (List ℝ)) :=
  if grad_norm grads > max_norm then
    grads.map (Option.map (List.map fun g => g / (grad_norm grads / max_norm)))
  else grads

/-- Round half to even, the rounding of `torch.round` used on the core
shape in `_bbox_to_mask` (util.py line 178). -/
def roundHalfEven (q : ℚ) : ℤ :=
  if q - ⌊q⌋ < 1 / 2 then ⌊q⌋
  else if q - ⌊q⌋ > 1 / 2 then ⌊q⌋ + 1
  else if ⌊q⌋ % 2 = 0 then ⌊q⌋ else ⌊q⌋ + 1

/-- Truncation toward zero, Python's `int(_)` on the pad sizes. -/
def truncQ (q : ℚ) : ℤ := if 0 ≤ q then ⌊q⌋ else ⌈q⌉

/-- Width of the `core` rectangle of ones:
`round(w - max(-x,0)).clamp(min=1)` (util.py lines 177-179). -/
def core_w (b : Box) : ℤ := max (roundHalfEven (b.w - max (-b.x) 0)) 1

/-- Height of the `core` rectangle of ones:
`round(h - max(-y,0)).clamp(min=1)` (util.py lines 177-179). -/
def core_h (b : Box) : ℤ := max (roundHalfEven (b.h - max (-b.y) 0)) 1

/-- Left padding `int(x1) = int(max(x, 0))` (util.py lines 182, 186-187). -/
def padLeft (b : Box) : ℤ := truncQ (max b.x 0)

/-- Top padding `int(y1) = int(max(y, 0))` (util.py lines 181, 186-187). -/
def padTop (b : Box) : ℤ := truncQ (max b.y 0)

/-- Right padding `int(cols - min(x + w, cols))` (util.py lines 184, 186-187). -/
def padRight (b : Box) (cols : ℤ) : ℤ :=
  truncQ ((cols : ℚ) - min (b.x + b.w) (cols : ℚ))

/-- Bottom padding `int(rows - min(y + h, rows))` (util.py lines 183, 186-187). -/
def padBot (b : Box) (rows : ℤ) : ℤ :=
  truncQ ((rows : ℚ) - min (b.y + b.h) (rows : ℚ))

/-- One entry of the zero-padded core raster `F.pad(core, padspace)`:
one inside the translated core rectangle, zero in the padding. -/
def maskEntry (b : Box) (i j : ℤ) : ℚ :=
  if padTop b ≤ i ∧ i < padTop b + core_h b ∧
     padLeft b ≤ j ∧ j < padLeft b + core_w b then 1 else 0

/-- The mask at the region's native resolution: the padded raster sliced to
`[:max(rows,1), :max(cols,1)]` (util.py lines 176-193). -/
def nativeMask (b : Box) (rows cols : ℤ) : List (List ℚ) :=
  (List.range (min (core_h b + padTop b + padBot b rows) (max rows 1)).toNat).map
    fun (i : ℕ) =>
      (List.range
          (min (core_w b + padLeft b + padRight b cols) (max cols 1)).toNat).map
        fun (j : ℕ) => maskEntry b (i : ℤ) (j : ℤ)

/-- Model of `_bbox_to_mask(yy, region_size, output_size)` (util.py lines
176-195): the native-resolution mask handed to the external resampler
`scipy.misc.imresize(mask, output_size) / 255`, which is outside this
repository and is therefore abstracted as the function parameter
`resize`. -/
def _bbox_to_mask (resize : List (List ℚ) → ℕ × ℕ → List (List ℚ))
    (b : Box) (rows cols : ℤ) (out : ℕ × ℕ) : List (List ℚ) :=
  resize (nativeMask b rows cols) out

/-- Model of `bbox_to_mask` (util.py lines 198-214) on the flattened box
list: one independent rasterization per box. -/
def bbox_to_mask (resize : List (List ℚ) → ℕ × ℕ → List (List ℚ))
    (bs : List Box) (rows cols : ℤ) (out : ℕ × ℕ) : List (List (List ℚ)) :=
  bs.map fun b => _bbox_to_mask resize b rows cols out

/-- A raster is all-zero. -/
def allZero (m : List (List ℚ)) : Prop := ∀ row ∈ m, ∀ v ∈ row, v = 0

instance (m : List (List ℚ)) : Decidable (allZero m) := by
  unfold allZero; infer_instance

/-- The one property of the abstract resampler the claims need: resampling
an all-zero raster (at any output size) yields an all-zero raster.  Any
interpolation-based resize followed by an intensity normalization has it. -/
def ZeroPreserving (resize : List (List ℚ) → ℕ × ℕ → List (List ℚ)) : Prop :=
  ∀ m out, allZero m → allZero (resize m out)

/-- The identity resampler, a trivially zero-preserving instance (it is the
behaviour of any sane resampler when the output size equals the input
size, as in the counterexample below). -/
def resizeId : List (List ℚ) → ℕ × ℕ → List (List ℚ) := fun m _ => m

/-- The box lies fully outside the region bounds `[0, rows) × [0, cols)`. -/
def fullyOutside (b : Box) (rows cols : ℤ) : Prop :=
  b.x + b.w ≤ 0 ∨ (cols : ℚ) ≤ b.x ∨ b.y + b.h ≤ 0 ∨ (rows : ℚ) ≤ b.y

instance (b : Box) (rows cols : ℤ) : Decidable (fullyOutside b rows cols) := by
  unfold fullyOutside; infer_instance

/-- C6: `clamp_bbox` keeps `x` and `y` and replaces the width and height by
their nonnegative clamps; in particular `(x, y, -2, 3)` becomes
`(x, y, 0, 3)`. -/
theorem clamp_bbox_spec (b : Box) (x y : ℚ) :
    clamp_bbox b = ⟨b.x, b.y, max b.w 0, max b.h 0⟩ ∧
    clamp_bbox ⟨x, y, -2, 3⟩ = ⟨x, y, 0, 3⟩ := by
  have key : ∀ q : ℚ, q - min q 0 = max q 0 := by
    intro q
    have h := max_add_min q 0
    linarith
  refine ⟨?_, ?_⟩
  · simp [clamp_bbox, key]
  · simp [clamp_bbox, key]

/-- C7: `check_bbox_validness` fails exactly when some box in the array has
negative width or height; it fails on `(0,0,-1,2)`, succeeds on
`(0,0,0,0)`, and `intersection` returns a value iff the check succeeds on
both of its arguments. -/
theorem check_bbox_validness_spec :
    (∀ bs : List Box, ¬ check_bbox_validness bs ↔ ∃ b ∈ bs, b.w < 0 ∨ b.h < 0) ∧
    ¬ check_bbox_validness [⟨0, 0, -1, 2⟩] ∧
    check_bbox_validness [⟨0, 0, 0, 0⟩] ∧
    ∀ a b : Box, (intersection a b).isSome ↔
      (check_bbox_validness [a] ∧ check_bbox_validness [b]) := by
  refine ⟨?_, by decide, by decide, ?_⟩
  · intro bs
    simp only [check_bbox_validness, boxValidP, not_forall]
    constructor
    · rintro ⟨b, hb, hno⟩
      refine ⟨b, hb, ?_⟩
      by_contra hc
      push_neg at hc
      exact hno ⟨le_of_not_lt fun h => absurd (hc.1) (not_le.mpr h), le_of_not_lt fun h => absurd (hc.2) (not_le.mpr h)⟩
    · rintro ⟨b, hb, hbad⟩
      refine ⟨b, hb, fun hv => ?_⟩
      rcases hbad with h | h
      · exact absurd hv.1 (not_le.mpr h)
      · exact absurd hv.2 (not_le.mpr h)
  · intro a b
    by_cases h : boxValidP a ∧ boxValidP b
    · simp [intersection, h, check_bbox_validness, h.1, h.2]
    · simp only [intersection, if_neg h, Option.isSome_none, check_bbox_validness]
      constructor
      · intro hc; cases hc
      · intro hc
        exact absurd ⟨hc.1 a (by simp), hc.2 b (by simp)⟩ h

/-- C4: for valid boxes the intersection assertion passes, and the computed
area is nonnegative and bounded by the smaller of the two box areas. -/
theorem intersection_bounds (a b : Box)
    (haw : 0 ≤ a.w) (hah : 0 ≤ a.h) (hbw : 0 ≤ b.w) (hbh : 0 ≤ b.h) :
    intersection a b = some (inter_area a b) ∧
    0 ≤ inter_area a b ∧
    inter_area a b ≤ min (box_area a) (box_area b) := by
  refine ⟨by simp [intersection, boxValidP, haw, hah, hbw, hbh], ?_, ?_⟩
  · exact mul_nonneg (le_max_right _ _) (le_max_right _ _)
  · have hwa : max (min (a.x + a.w) (b.x + b.w) - max a.x b.x) 0 ≤ a.w := by
      refine max_le ?_ haw
      have h1 : min (a.x + a.w) (b.x + b.w) ≤ a.x + a.w := min_le_left _ _
      have h2 : a.x ≤ max a.x b.x := le_max_left _ _
      linarith
    have hwb : max (min (a.x + a.w) (b.x + b.w) - max a.x b.x) 0 ≤ b.w := by
      refine max_le ?_ hbw
      have h1 : min (a.x + a.w) (b.x + b.w) ≤ b.x + b.w := min_le_right _ _
      have h2 : b.x ≤ max a.x b.x := le_max_right _ _
      linarith
    have hha : max (min (a.y + a.h) (b.y + b.h) - max a.y b.y) 0 ≤ a.h := by
      refine max_le ?_ hah
      have h1 : min (a.y + a.h) (b.y + b.h) ≤ a.y + a.h := min_le_left _ _
      have h2 : a.y ≤ max a.y b.y := le_max_left _ _
      linarith
    have hhb : max (min (a.y + a.h) (b.y + b.h) - max a.y b.y) 0 ≤ b.h := by
      refine max_le ?_ hbh
      have h1 : min (a.y + a.h) (b.y + b.h) ≤ b.y + b.h := min_le_right _ _
      have h2 : b.y ≤ max a.y b.y := le_max_right _ _
      linarith
    refine le_min ?_ ?_
    · exact mul_le_mul hwa hha (le_max_right _ _) haw
    · exact mul_le_mul hwb hhb (le_max_right _ _) hbw

/-- Witness for C4 at the overlapping boxes `(0,0,2,2)` and `(1,1,2,2)`. -/
theorem intersection_bounds_witness :
    intersection ⟨0, 0, 2, 2⟩ ⟨1, 1, 2, 2⟩ =
      some (inter_area ⟨0, 0, 2, 2⟩ ⟨1, 1, 2, 2⟩) ∧
    0 ≤ inter_area ⟨0, 0, 2, 2⟩ ⟨1, 1, 2, 2⟩ ∧
    inter_area ⟨0, 0, 2, 2⟩ ⟨1, 1, 2, 2⟩ ≤
      min (box_area ⟨0, 0, 2, 2⟩) (box_area ⟨1, 1, 2, 2⟩) :=
  intersection_bounds _ _ (by norm_num) (by norm_num) (by norm_num) (by norm_num)

/-- C5: `iou a a = some 1` for a valid box of positive area, and `iou` is
symmetric in its two arguments. -/
theorem iou_self_one_and_symm :
    (∀ a : Box, boxValidP a → 0 < box_area a → iou a a = some 1) ∧
    ∀ a b : Box, iou a b = iou b a := by
  have hsym : ∀ a b : Box, inter_area a b = inter_area b a := by
    intro a b
    unfold inter_area
    rw [max_comm a.x b.x, min_comm (a.x + a.w) (b.x + b.w),
      max_comm a.y b.y, min_comm (a.y + a.h) (b.y + b.h)]
  constructor
  · intro a hv hpos
    have hself : inter_area a a = box_area a := by
      simp only [inter_area, box_area, max_self, min_self, add_sub_cancel_left,
        max_eq_left hv.1, max_eq_left hv.2]
    have hne : box_area a ≠ 0 := ne_of_gt hpos
    simp only [iou, intersection, if_pos (And.intro hv hv), Option.map_some']
    rw [hself]
    have hden : box_area a + box_area a - box_area a = box_area a := by ring
    rw [hden, div_self hne]
  · intro a b
    by_cases h : boxValidP a ∧ boxValidP b
    · have h' : boxValidP b ∧ boxValidP a := ⟨h.2, h.1⟩
      simp only [iou, intersection, if_pos h, if_pos h', Option.map_some']
      rw [hsym a b, add_comm (box_area a) (box_area b)]
    · have h' : ¬ (boxValidP b ∧ boxValidP a) := fun hc => h ⟨hc.2, hc.1⟩
      simp [iou, intersection, if_neg h, if_neg h']

/-- Witness for C5 at the unit box `(0,0,1,1)`. -/
theorem iou_self_one_witness : iou ⟨0, 0, 1, 1⟩ ⟨0, 0, 1, 1⟩ = some 1 :=
  iou_self_one_and_symm.1 ⟨0, 0, 1, 1⟩ (by constructor <;> norm_num)
    (by norm_num [box_area])

/-- C1 counterexample: at `x = -1` the conditional epsilon is added (since
`x < eps`), yet the argument handed to `log` is `-1 + 1e-8`, which is not
positive — the guard is not sufficient for entries below `-eps`. -/
theorem nll_arg_not_positive_cex :
    nll_dx (-1) defaultEps = defaultEps ∧ ¬ 0 < nll_arg (-1) defaultEps := by
  constructor
  · norm_num [nll_dx, defaultEps]
  · norm_num [nll_arg, nll_dx, defaultEps]

/-- C1 (amended): `nll` adds `eps` to `x` exactly when `x < eps` and leaves
all other entries untouched, and the argument passed to `log` is strictly
positive for every entry `x > -eps` (in particular for every `x ≥ 0`),
though not for entries at or below `-eps`. -/
theorem nll_arg_spec (x eps : ℚ) :
    (x < eps → nll_arg x eps = x + eps) ∧
    (eps ≤ x → nll_arg x eps = x) ∧
    (0 < eps → -eps < x → 0 < nll_arg x eps) := by
  refine ⟨fun h => ?_, fun h => ?_, fun heps hx => ?_⟩
  · rw [nll_arg, nll_dx, if_pos (by linarith)]
  · rw [nll_arg, nll_dx, if_neg (by simp only [not_lt]; linarith), add_zero]
  · rcases lt_or_le x eps with h | h
    · rw [nll_arg, nll_dx, if_pos (by linarith)]
      linarith
    · rw [nll_arg, nll_dx, if_neg (by simp only [not_lt]; linarith), add_zero]
      linarith

/-- Witness for C1 (amended) at `x = 0` with the default epsilon. -/
theorem nll_arg_spec_witness :
    nll_arg 0 defaultEps = 0 + defaultEps ∧ 0 < nll_arg 0 defaultEps :=
  ⟨(nll_arg_spec 0 defaultEps).1 (by norm_num [defaultEps]),
   (nll_arg_spec 0 defaultEps).2.2 (by norm_num [defaultEps])
     (by norm_num [defaultEps])⟩

theorem presenceInd_nonneg (q : ℚ) : 0 ≤ presenceInd q := by
  unfold presenceInd
  split <;> norm_num

theorem row_p_nonneg (ps : List ℚ) : 0 ≤ row_p ps := by
  induction ps with
  | nil => simp [row_p]
  | cons q ps ih =>
      have h := presenceInd_nonneg q
      simp only [row_p, List.map_cons, List.sum_cons] at ih ⊢
      linarith

theorem row_p_one_le (ps : List ℚ) (h : ∃ q ∈ ps, q ≠ 0) : 1 ≤ row_p ps := by
  induction ps with
  | nil => simp at h
  | cons q ps ih =>
      simp only [row_p, List.map_cons, List.sum_cons]
      rcases h with ⟨r, hr, hrne⟩
      rcases List.mem_cons.mp hr with rfl | hmem
      · have h2 := row_p_nonneg ps
        simp only [presenceInd, if_pos hrne]
        unfold row_p at h2
        linarith
      · have h1 := ih ⟨r, hmem, hrne⟩
        have h2 := presenceInd_nonneg q
        unfold row_p at h1
        linarith

/-- C3 counterexample: when every presence entry is zero the final divisor
`(p != 0).float().sum()` of `masked_nll` is zero, so the batch average is a
division by zero (`0/0`, a NaN in floating point) — the floor-at-1 guard
protects only the per-row divisor, not the final one. -/
theorem masked_nll_zero_divisor_cex :
    batch_divisor [[0]] = 0 ∧
    (∀ lg : ℚ → ℚ, ∀ x : List (List ℚ), ∀ w : Option (List (List ℚ)),
      masked_nll lg x [[0]] w =
        (List.zipWith (fun s pi => s / max pi 1 * presenceInd pi)
          ((List.zipWith mask_row (nll_weighted lg x w) [[0]]).map List.sum)
          ([[(0 : ℚ)]].map row_p)).sum / batch_divisor [[0]]) := by
  constructor
  · norm_num [batch_divisor, row_p, presenceInd]
  · intro lg x w
    simp only [masked_nll, batch_divisor, List.map_map]
    rfl

/-- C3 (amended): every per-row divisor of `masked_nll` is at least one,
and whenever at least one presence entry in the batch is nonzero the final
batch divisor is also at least one; only a batch whose presence entries are
all zero makes the final average a `0/0` division. -/
theorem masked_nll_divisors_spec (presence : List (List ℚ))
    (h : ∃ ps ∈ presence, ∃ q ∈ ps, q ≠ 0) :
    (∀ ps ∈ presence, 1 ≤ row_divisor ps) ∧ 1 ≤ batch_divisor presence := by
  constructor
  · intro ps _
    exact le_max_right _ _
  · rcases h with ⟨ps, hps, hq⟩
    have hposrow : 1 ≤ row_p ps := row_p_one_le ps hq
    have hind : presenceInd (row_p ps) = 1 := by
      unfold presenceInd
      rw [if_pos (by intro h0; rw [h0] at hposrow; norm_num at hposrow)]
    have hmem : presenceInd (row_p ps) ∈
        presence.map fun r => presenceInd (row_p r) :=
      List.mem_map_of_mem _ hps
    have hnn : ∀ a ∈ presence.map fun r => presenceInd (row_p r), (0 : ℚ) ≤ a := by
      intro a ha
      rcases List.mem_map.mp ha with ⟨r, _, rfl⟩
      exact presenceInd_nonneg _
    have := List.single_le_sum hnn _ hmem
    unfold batch_divisor
    rw [hind] at this
    exact this

/-- Witness for C3 (amended) at the presence matrix `[[1,0],[0,0]]`. -/
theorem masked_nll_divisors_witness :
    (∀ ps ∈ [[(1 : ℚ), 0], [0, 0]], 1 ≤ row_divisor ps) ∧
    1 ≤ batch_divisor [[(1 : ℚ), 0], [0, 0]] :=
  masked_nll_divisors_spec [[1, 0], [0, 0]] (by decide)

theorem mask_row_sum_filter (a : List ℚ) :
    ∀ ps : List ℚ, (mask_row a ps).sum =
      (((List.zip a ps).filter fun vp => decide (vp.2 ≠ 0)).map Prod.fst).sum := by
  induction a with
  | nil => intro ps; simp [mask_row]
  | cons v a ih =>
      intro ps
      cases ps with
      | nil => simp [mask_row]
      | cons p ps =>
          have ihp := ih ps
          simp only [mask_row] at ihp
          simp only [mask_row, List.zipWith_cons_cons, List.sum_cons,
            List.zip_cons_cons, List.filter_cons, decide_eq_true_eq]
          by_cases hp : p = 0
          · rw [presenceInd, if_neg (not_not_intro hp), mul_zero, zero_add,
              if_neg (not_not_intro hp), ihp]
          · rw [presenceInd, if_pos hp, mul_one, if_pos hp, List.map_cons,
              List.sum_cons, ihp]

theorem row_p_eq_countP (ps : List ℚ) :
    row_p ps = ((ps.countP fun q => decide (q ≠ 0) : ℕ) : ℚ) := by
  induction ps with
  | nil => simp [row_p]
  | cons q ps ih =>
      simp only [row_p, List.map_cons, List.sum_cons, List.countP_cons] at ih ⊢
      by_cases hq : q = 0
      · simp [presenceInd, hq, ih]
      · simp [presenceInd, hq, ih]
        ring

theorem row_p_ne_iff_any (ps : List ℚ) :
    row_p ps ≠ 0 ↔ (ps.any fun q => decide (q ≠ 0)) = true := by
  rw [row_p_eq_countP, List.any_eq_true, ne_eq, Nat.cast_eq_zero]
  constructor
  · intro h
    rcases List.countP_pos_iff.mp (Nat.pos_of_ne_zero h) with ⟨q, hq, hq'⟩
    exact ⟨q, hq, hq'⟩
  · rintro ⟨q, hq, hq'⟩
    exact Nat.pos_iff_ne_zero.mp (List.countP_pos_iff.mpr ⟨q, hq, hq'⟩)

theorem agg_num (wa : List (List ℚ)) :
    ∀ pr : List (List ℚ),
      (List.zipWith (fun s pi => s / max pi 1 * presenceInd pi)
        ((List.zipWith mask_row wa pr).map List.sum) (pr.map row_p)).sum =
      (((List.zip wa pr).filter fun r => r.2.any fun q => decide (q ≠ 0)).map
        fun r =>
          (((List.zip r.1 r.2).filter fun vp => decide (vp.2 ≠ 0)).map
            Prod.fst).sum /
          max ((r.2.countP fun q => decide (q ≠ 0) : ℕ) : ℚ) 1).sum := by
  induction wa with
  | nil => intro pr; simp
  | cons xs wa ih =>
      intro pr
      cases pr with
      | nil => simp
      | cons ps pr =>
          simp only [List.zipWith_cons_cons, List.map_cons, List.sum_cons,
            List.zip_cons_cons, List.filter_cons]
          by_cases hany : (ps.any fun q => decide (q ≠ 0)) = true
          · have hne : row_p ps ≠ 0 := (row_p_ne_iff_any ps).mpr hany
            simp only [hany, if_true, List.map_cons, List.sum_cons]
            rw [presenceInd, if_pos hne, mul_one, mask_row_sum_filter,
              row_p_eq_countP, ih pr]
          · have heq : row_p ps = 0 := by
              by_contra hc
              exact hany ((row_p_ne_iff_any ps).mp hc)
            simp only [hany, if_false, Bool.false_eq_true]
            rw [heq, presenceInd, if_neg (by norm_num), mul_zero, zero_add,
              ih pr]

theorem agg_den (wa : List (List ℚ)) :
    ∀ pr : List (List ℚ), wa.length = pr.length →
      ((pr.map row_p).map presenceInd).sum =
      ((((List.zip wa pr).filter fun r => r.2.any fun q => decide (q ≠ 0)).length : ℕ) : ℚ) := by
  induction wa with
  | nil =>
      intro pr h
      cases pr with
      | nil => simp
      | cons ps pr => simp at h
  | cons xs wa ih =>
      intro pr h
      cases pr with
      | nil => simp at h
      | cons ps pr =>
          simp only [List.length_cons, Nat.add_right_cancel_iff] at h
          simp only [List.map_cons, List.sum_cons, List.zip_cons_cons,
            List.filter_cons]
          by_cases hany : (ps.any fun q => decide (q ≠ 0)) = true
          · have hne : row_p ps ≠ 0 := (row_p_ne_iff_any ps).mpr hany
            simp only [hany, if_true, List.length_cons]
            rw [presenceInd, if_pos hne, ih pr h]
            push_cast
            ring
          · have heq : row_p ps = 0 := by
              by_contra hc
              exact hany ((row_p_ne_iff_any ps).mp hc)
            simp only [hany, if_false, Bool.false_eq_true]
            rw [heq, presenceInd, if_neg (by norm_num), zero_add, ih pr h]

theorem masked_nll_agg (lg : ℚ → ℚ) (x presence : List (List ℚ))
    (w : Option (List (List ℚ)))
    (h : (nll_weighted lg x w).length = presence.length) :
    masked_nll lg x presence w = maskedMean_spec lg x presence w := by
  simp only [masked_nll, maskedMean_spec]
  rw [agg_num, agg_den _ _ h]

/-- C2: `masked_nll` coincides with the spec's description `maskedMean`
(negative log, optional weight, zero the absent entries, per-row mean over
present entries with the divisor floored at one, then average over exactly
the rows with at least one present object) whenever the loss, presence and
weight arrays have matching batch sizes; in particular with presence
`[[1,0],[0,0]]` and loss `[[1/2,9/10],[3/10,7/10]]` it returns
`nll lg (1/2)`, the negative log of the single present entry. -/
theorem masked_nll_eq_spec :
    (∀ (lg : ℚ → ℚ) (x presence : List (List ℚ)),
      x.length = presence.length →
      masked_nll lg x presence none = maskedMean_spec lg x presence none) ∧
    (∀ (lg : ℚ → ℚ) (x presence w : List (List ℚ)),
      x.length = presence.length → w.length = x.length →
      masked_nll lg x presence (some w) = maskedMean_spec lg x presence (some w)) ∧
    ∀ lg : ℚ → ℚ,
      masked_nll lg [[1/2, 9/10], [3/10, 7/10]] [[1, 0], [0, 0]] none =
        nll lg (1/2) := by
  refine ⟨?_, ?_, ?_⟩
  · intro lg x presence h
    exact masked_nll_agg lg x presence none (by simpa [nll_weighted] using h)
  · intro lg x presence w hx hw
    refine masked_nll_agg lg x presence (some w) ?_
    simp only [nll_weighted, List.length_zipWith, List.length_map, hw]
    omega
  · intro lg
    norm_num [masked_nll, nll_weighted, nll_row, mask_row, row_p, presenceInd,
      nll, nll_arg, nll_dx, defaultEps]

/-- Witness for C2 at a one-row input with the identity as logarithm. -/
theorem masked_nll_eq_spec_witness :
    masked_nll (fun q => q) [[1]] [[2]] none =
      maskedMean_spec (fun q => q) [[1]] [[2]] none :=
  masked_nll_eq_spec.1 (fun q => q) [[1]] [[2]] rfl

theorem agreeOnB_cons {p a b : ℚ} {ps xs ys : List ℚ}
    (h : agreeOnB (p :: ps) (a :: xs) (b :: ys) = true) :
    (p = 0 ∨ a = b) ∧ agreeOnB ps xs ys = true := by
  simp only [agreeOnB, Bool.and_eq_true, Bool.or_eq_true, decide_eq_true_eq] at h
  exact h

theorem mask_nll_row_congr (lg : ℚ → ℚ) (ps : List ℚ) :
    ∀ xs ys, agreeOnB ps xs ys = true →
      mask_row (nll_row lg xs) ps = mask_row (nll_row lg ys) ps := by
  induction ps with
  | nil => intro xs ys _; simp [mask_row]
  | cons p ps ih =>
      intro xs ys h
      cases xs with
      | nil => cases ys <;> simp_all [agreeOnB]
      | cons a xs =>
        cases ys with
        | nil => simp_all [agreeOnB]
        | cons b ys =>
          obtain ⟨h1, h2⟩ := agreeOnB_cons h
          simp only [mask_row, nll_row, List.map_cons, List.zipWith_cons_cons]
          refine congrArg₂ (· :: ·) ?_ (ih xs ys h2)
          rcases h1 with hp | hab
          · simp [presenceInd, hp]
          · rw [hab]

theorem mask_nll_row_congr_w (lg : ℚ → ℚ) (ps : List ℚ) :
    ∀ xs ys ws ws', agreeOnB ps xs ys = true → agreeOnB ps ws ws' = true →
      mask_row (mul_rows (nll_row lg xs) ws) ps =
        mask_row (mul_rows (nll_row lg ys) ws') ps := by
  induction ps with
  | nil => intro xs ys ws ws' _ _; simp [mask_row]
  | cons p ps ih =>
      intro xs ys ws ws' hx hw
      cases xs with
      | nil => cases ys <;> simp_all [agreeOnB]
      | cons a xs =>
        cases ys with
        | nil => simp_all [agreeOnB]
        | cons b ys =>
          cases ws with
          | nil => cases ws' <;> simp_all [agreeOnB]
          | cons u ws =>
            cases ws' with
            | nil => simp_all [agreeOnB]
            | cons v ws' =>
              obtain ⟨hx1, hx2⟩ := agreeOnB_cons hx
              obtain ⟨hw1, hw2⟩ := agreeOnB_cons hw
              simp only [mask_row, mul_rows, nll_row, List.map_cons,
                List.zipWith_cons_cons]
              refine congrArg₂ (· :: ·) ?_ (ih xs ys ws ws' hx2 hw2)
              rcases hx1 with hp | hab
              · simp [presenceInd, hp]
              · rcases hw1 with hp | huv
                · simp [presenceInd, hp]
                · rw [hab, huv]

theorem mask_nll_congr (lg : ℚ → ℚ) (pr : List (List ℚ)) :
    ∀ x y, agreeOnMB pr x y = true →
      List.zipWith mask_row (x.map (nll_row lg)) pr =
        List.zipWith mask_row (y.map (nll_row lg)) pr := by
  induction pr with
  | nil => intro x y _; simp
  | cons ps pr ih =>
      intro x y h
      cases x with
      | nil => cases y <;> simp_all [agreeOnMB]
      | cons xs xr =>
        cases y with
        | nil => simp_all [agreeOnMB]
        | cons ys yr =>
          simp only [agreeOnMB, Bool.and_eq_true] at h
          simp only [List.map_cons, List.zipWith_cons_cons]
          exact congrArg₂ (· :: ·) (mask_nll_row_congr lg ps xs ys h.1)
            (ih xr yr h.2)

theorem mask_nll_congr_w (lg : ℚ → ℚ) (pr : List (List ℚ)) :
    ∀ x y w w', agreeOnMB pr x y = true → agreeOnMB pr w w' = true →
      List.zipWith mask_row (List.zipWith mul_rows (x.map (nll_row lg)) w) pr =
        List.zipWith mask_row (List.zipWith mul_rows (y.map (nll_row lg)) w') pr := by
  induction pr with
  | nil => intro x y w w' _ _; simp
  | cons ps pr ih =>
      intro x y w w' hx hw
      cases x with
      | nil => cases y <;> simp_all [agreeOnMB]
      | cons xs xr =>
        cases y with
        | nil => simp_all [agreeOnMB]
        | cons ys yr =>
          cases w with
          | nil => cases w' <;> simp_all [agreeOnMB]
          | cons ws wr =>
            cases w' with
            | nil => simp_all [agreeOnMB]
            | cons ws' wr' =>
              simp only [agreeOnMB, Bool.and_eq_true] at hx hw
              simp only [List.map_cons, List.zipWith_cons_cons]
              exact congrArg₂ (· :: ·)
                (mask_nll_row_congr_w lg ps xs ys ws ws' hx.1 hw.1)
                (ih xr yr wr wr' hx.2 hw.2)

/-- C10: the value of `masked_nll` does not depend on the loss or weight
entries at positions whose presence is zero: two invocations agreeing on
the presence matrix and on every present position return the same scalar. -/
theorem masked_nll_ignores_masked (lg : ℚ → ℚ) (presence x x' : List (List ℚ))
    (w w' : Option (List (List ℚ)))
    (hx : agreeOnMB presence x x' = true)
    (hw : weightAgreeB presence w w' = true) :
    masked_nll lg x presence w = masked_nll lg x' presence w' := by
  suffices hkey : List.zipWith mask_row (nll_weighted lg x w) presence =
      List.zipWith mask_row (nll_weighted lg x' w') presence by
    simp only [masked_nll, hkey]
  cases w with
  | none =>
      cases w' with
      | none => exact mask_nll_congr lg presence x x' hx
      | some w' => simp [weightAgreeB] at hw
  | some wm =>
      cases w' with
      | none => simp [weightAgreeB] at hw
      | some wm' =>
          simp only [weightAgreeB] at hw
          exact mask_nll_congr_w lg presence x x' wm wm' hx hw

/-- Witness for C10: changing a padding entry (presence zero) of the loss
matrix from `5` to `7` leaves the returned scalar unchanged. -/
theorem masked_nll_ignores_masked_witness :
    masked_nll (fun q => q) [[1/2, 5]] [[1, 0]] none =
      masked_nll (fun q => q) [[1/2, 7]] [[1, 0]] none :=
  masked_nll_ignores_masked (fun q => q) [[1, 0]] [[1/2, 5]] [[1/2, 7]]
    none none (by norm_num [agreeOnMB, agreeOnB]) (by norm_num [weightAgreeB])

/-- C8: the global norm is the square root of the summed squared per-tensor
norms; when it exceeds `max_norm` every gradient entry is scaled by exactly
`max_norm / grad_norm`, and when it does not (in particular when no
gradients are present at all) every gradient is left unchanged. -/
theorem clip_grads_spec (grads : List (Option (List ℝ))) (m : ℝ) :
    grad_norm grads = Real.sqrt (grad_sq_sum grads) ∧
    (grad_norm grads > m →
      clip_grads grads m =
        grads.map (Option.map (List.map fun g => g * (m / grad_norm grads)))) ∧
    (grad_norm grads ≤ m → clip_grads grads m = grads) ∧
    ((∀ g ∈ grads, g = none) → clip_grads grads m = grads) := by
  refine ⟨rfl, fun h => ?_, fun h => ?_, fun h => ?_⟩
  · rw [clip_grads, if_pos h]
    have hfun : (fun g => g / (grad_norm grads / m)) =
        fun g : ℝ => g * (m / grad_norm grads) := by
      funext g
      rw [div_div_eq_mul_div, mul_div_assoc]
    rw [hfun]
  · rw [clip_grads, if_neg (not_lt.mpr h)]
  · rw [clip_grads]
    split
    · have hid : grads.map (Option.map
          (List.map fun g => g / (grad_norm grads / m))) = grads.map id := by
        refine List.map_congr_left ?_
        intro g hg
        rw [h g hg]
        rfl
      rw [hid, List.map_id]
    · rfl

/-- Witness for C8: gradients `[6]` and `[8]` have global norm `10`, so
with `max_norm = 5` each is halved; a single gradient `[3]` is below the
threshold and is unchanged. -/
theorem clip_grads_spec_witness :
    clip_grads [some [6], some [8]] 5 = [some [3], some [4]] ∧
    clip_grads [some [3]] 5 = [some [3]] := by
  have hsq : grad_sq_sum [some [(6 : ℝ)], some [8]] = 100 := by
    simp only [grad_sq_sum, tensor_norm, List.map_cons, List.map_nil,
      List.sum_cons, List.sum_nil]
    rw [Real.sq_sqrt (by norm_num : (0 : ℝ) ≤ 6 ^ 2 + 0),
      Real.sq_sqrt (by norm_num : (0 : ℝ) ≤ 8 ^ 2 + 0)]
    norm_num
  have hn : grad_norm [some [(6 : ℝ)], some [8]] = 10 := by
    rw [grad_norm, hsq, show (100 : ℝ) = 10 ^ 2 by norm_num,
      Real.sqrt_sq (by norm_num : (0 : ℝ) ≤ 10)]
  have hsq3 : grad_sq_sum [some [(3 : ℝ)]] = 9 := by
    simp only [grad_sq_sum, tensor_norm, List.map_cons, List.map_nil,
      List.sum_cons, List.sum_nil]
    rw [Real.sq_sqrt (by norm_num : (0 : ℝ) ≤ 3 ^ 2 + 0)]
    norm_num
  have hn3 : grad_norm [some [(3 : ℝ)]] = 3 := by
    rw [grad_norm, hsq3, show (9 : ℝ) = 3 ^ 2 by norm_num,
      Real.sqrt_sq (by norm_num : (0 : ℝ) ≤ 3)]
  constructor
  · have h := (clip_grads_spec [some [6], some [8]] 5).2.1
      (by rw [hn]; norm_num)
    rw [h, hn]
    norm_num
  · exact (clip_grads_spec [some [3]] 5).2.2.1 (by rw [hn3]; norm_num)

theorem nativeMask_allZero (b : Box) (rows cols : ℤ) (hrows : 1 ≤ rows)
    (hcols : 1 ≤ cols) (h : (cols : ℚ) ≤ b.x ∨ (rows : ℚ) ≤ b.y) :
    allZero (nativeMask b rows cols) := by
  intro row hrow v hv
  simp only [nativeMask, List.mem_map, List.mem_range] at hrow
  obtain ⟨i, hi, rfl⟩ := hrow
  simp only [List.mem_map, List.mem_range] at hv
  obtain ⟨j, hj, rfl⟩ := hv
  rcases h with hx | hy
  · have hx0 : (0 : ℚ) ≤ b.x :=
      le_trans (le_trans zero_le_one (by exact_mod_cast hcols)) hx
    have hpadL : (cols : ℤ) ≤ padLeft b := by
      rw [padLeft, truncQ, max_eq_left hx0, if_pos hx0]
      exact Int.le_floor.mpr hx
    have hub : min (core_w b + padLeft b + padRight b cols) (max cols 1) ≤
        cols := le_trans (min_le_right _ _) (le_of_eq (max_eq_left hcols))
    have hjcols : (j : ℤ) < cols := lt_of_lt_of_le (Int.lt_toNat.mp hj) hub
    rw [maskEntry, if_neg]
    rintro ⟨-, -, hc, -⟩
    omega
  · have hy0 : (0 : ℚ) ≤ b.y :=
      le_trans (le_trans zero_le_one (by exact_mod_cast hrows)) hy
    have hpadT : (rows : ℤ) ≤ padTop b := by
      rw [padTop, truncQ, max_eq_left hy0, if_pos hy0]
      exact Int.le_floor.mpr hy
    have hub : min (core_h b + padTop b + padBot b rows) (max rows 1) ≤
        rows := le_trans (min_le_right _ _) (le_of_eq (max_eq_left hrows))
    have hirows : (i : ℤ) < rows := lt_of_lt_of_le (Int.lt_toNat.mp hi) hub
    rw [maskEntry, if_neg]
    rintro ⟨hc, -, -, -⟩
    omega

/-- C9 (amended): for every box lying fully beyond the right bound
(`x ≥ cols`) or fully beyond the bottom bound (`y ≥ rows`) of a region
with at least one row and column, `bbox_to_mask` produces an all-zero
raster, for any zero-preserving resampler.  (For boxes fully beyond the
left or top bound this fails, see the counterexample.) -/
theorem bbox_to_mask_outside_spec
    (resize : List (List ℚ) → ℕ × ℕ → List (List ℚ))
    (hres : ZeroPreserving resize) (bs : List Box) (rows cols : ℤ)
    (out : ℕ × ℕ) (hrows : 1 ≤ rows) (hcols : 1 ≤ cols)
    (h : ∀ b ∈ bs, (cols : ℚ) ≤ b.x ∨ (rows : ℚ) ≤ b.y) :
    ∀ mask ∈ bbox_to_mask resize bs rows cols out, allZero mask := by
  intro mask hmask
  simp only [bbox_to_mask, _bbox_to_mask, List.mem_map] at hmask
  obtain ⟨b, hb, rfl⟩ := hmask
  exact hres _ out (nativeMask_allZero b rows cols hrows hcols (h b hb))

/-- C9 counterexample: the box `(-5, 0, 2, 3)` lies fully outside the
`10 × 10` region (entirely left of it), yet the rasterized mask is not
all-zero: the core of ones is clamped to a minimum width of one and, with
a left padding of zero, its first column survives the final slice. -/
theorem bbox_to_mask_outside_cex :
    ZeroPreserving resizeId ∧
    fullyOutside ⟨-5, 0, 2, 3⟩ 10 10 ∧
    ¬ allZero (_bbox_to_mask resizeId ⟨-5, 0, 2, 3⟩ 10 10 (10, 10)) := by
  have hpt : padTop ⟨-5, 0, 2, 3⟩ = 0 := by
    norm_num [padTop, truncQ]
  have hpl : padLeft ⟨-5, 0, 2, 3⟩ = 0 := by
    norm_num [padLeft, truncQ, max_def]
  have hch : core_h ⟨-5, 0, 2, 3⟩ = 3 := by
    norm_num [core_h, roundHalfEven, max_def]
  have hcw : core_w ⟨-5, 0, 2, 3⟩ = 1 := by
    norm_num [core_w, roundHalfEven, max_def]
  have hpr : padRight ⟨-5, 0, 2, 3⟩ 10 = 13 := by
    norm_num [padRight, truncQ, min_def]
  have hpb : padBot ⟨-5, 0, 2, 3⟩ 10 = 7 := by
    norm_num [padBot, truncQ, min_def]
  refine ⟨fun _ _ hz => hz, by norm_num [fullyOutside], ?_⟩
  intro hz
  have hmem : ∀ row ∈ nativeMask ⟨-5, 0, 2, 3⟩ 10 10, ∀ v ∈ row, v = 0 := hz
  have h0row :
      ((List.range (min (core_w ⟨-5, 0, 2, 3⟩ + padLeft ⟨-5, 0, 2, 3⟩ +
          padRight ⟨-5, 0, 2, 3⟩ 10) (max 10 1)).toNat).map
        fun (j : ℕ) => maskEntry ⟨-5, 0, 2, 3⟩ ((0 : ℕ) : ℤ) (j : ℤ)) ∈
        nativeMask ⟨-5, 0, 2, 3⟩ 10 10 := by
    rw [nativeMask]
    refine List.mem_map.mpr ⟨0, List.mem_range.mpr ?_, rfl⟩
    rw [hch, hpt, hpb]
    norm_num
  have hval : maskEntry ⟨-5, 0, 2, 3⟩ ((0 : ℕ) : ℤ) ((0 : ℕ) : ℤ) ∈
      (List.range (min (core_w ⟨-5, 0, 2, 3⟩ + padLeft ⟨-5, 0, 2, 3⟩ +
        padRight ⟨-5, 0, 2, 3⟩ 10) (max 10 1)).toNat).map
          fun (j : ℕ) => maskEntry ⟨-5, 0, 2, 3⟩ ((0 : ℕ) : ℤ) (j : ℤ) := by
    refine List.mem_map.mpr ⟨0, List.mem_range.mpr ?_, rfl⟩
    rw [hcw, hpl, hpr]
    norm_num
  have hzero := hmem _ h0row _ hval
  have hone : maskEntry ⟨-5, 0, 2, 3⟩ ((0 : ℕ) : ℤ) ((0 : ℕ) : ℤ) = 1 := by
    rw [maskEntry, Nat.cast_zero, hpt, hpl, hch, hcw, if_pos]
    norm_num
  rw [hone] at hzero
  exact one_ne_zero hzero

/-- Witness for C9 (amended): a box fully beyond the right bound of the
region yields the all-zero raster. -/
theorem bbox_to_mask_outside_witness :
    allZero (_bbox_to_mask resizeId ⟨12, 0, 2, 3⟩ 10 10 (10, 10)) :=
  bbox_to_mask_outside_spec resizeId (fun _ _ hz => hz) [⟨12, 0, 2, 3⟩] 10 10
    (10, 10) (by norm_num) (by norm_num)
    (by
      intro b hb
      rcases List.mem_singleton.mp hb with rfl
      exact Or.inl (by norm_num))
    (_bbox_to_mask resizeId ⟨12, 0, 2, 3⟩ 10 10 (10, 10))
    (by simp [bbox_to_mask])
